import Mathlib

/-! # Tiled matrix multiplication with local memory (`5_matrix_mul_local_intel.cpp`) -/

namespace MatrixMulLocal

/-- Row-major offset of element `[j][i]` of a `range<2>(N, N)` buffer. -/
def idx2 (N j i : Nat) : Nat := j * N + i

/-- A global-memory buffer: the element stored at each linear offset. -/
structure Buf (γ : Type) where
  get : Nat → γ

/-- Store `v` at offset `p`. -/
def Buf.set {γ : Type} (c : Buf γ) (p : Nat) (v : γ) : Buf γ :=
  ⟨fun q => if q = p then v else c.get q⟩

/-- The two `B × B` local-memory tiles of one work-group. -/
structure Local (α : Type) where
  a_tile : Nat → Nat → α
  b_tile : Nat → Nat → α

/-- Store `v` into cell `[x][y]` of a two-dimensional local accessor. -/
def set2 {α : Type} (t : Nat → Nat → α) (x y : Nat) (v : α) : Nat → Nat → α :=
  fun x' y' => if x' = x ∧ y' = y then v else t x' y'

/-- Ids `(lj, li)` of a `B × B` index space, enumerated row-major: the local ids
of the work-items of a work-group, and the group ids of the grid. -/
def workItems (B : Nat) : List (Nat × Nat) :=
  (List.range B).flatMap (fun lj => (List.range B).map (fun li => (lj, li)))

/-- Lines 81-82: the tile load of work-item `w = (lj, li)` of group `(gj, gi)`. -/
def loadItem {α : Type} (N B : Nat) (a b : Nat → α) (gj gi kb : Nat)
    (t : Local α) (w : Nat × Nat) : Local α :=
  let lj := w.1
  let li := w.2
  let j := gj * B + lj
  let i := gi * B + li
  { a_tile := set2 t.a_tile lj li (a (idx2 N j (kb * B + li)))
    b_tile := set2 t.b_tile lj li (b (idx2 N (kb * B + lj) i)) }

/-- Lines 89-92: the accumulation loop of work-item `w = (lj, li)` of group
`(gj, gi)`; `mulAcc c x y` is the value stored by `c[j][i] += x * y`. -/
def computeItem {α γ : Type} (N B : Nat) (mulAcc : γ → α → α → γ) (gj gi : Nat)
    (t : Local α) (c : Buf γ) (w : Nat × Nat) : Buf γ :=
  let lj := w.1
  let li := w.2
  let j := gj * B + lj
  let i := gi * B + li
  (List.range B).foldl
    (fun c k => c.set (idx2 N j i)
      (mulAcc (c.get (idx2 N j i)) (t.a_tile lj k) (t.b_tile k li))) c

/-- One iteration of the `kb` loop for a whole work-group: every work-item
loads, barrier, every work-item accumulates, barrier. -/
def sweepStep {α γ : Type} (N B : Nat) (mulAcc : γ → α → α → γ) (a b : Nat → α)
    (gj gi : Nat) (st : Buf γ × Local α) (kb : Nat) : Buf γ × Local α :=
  let t := (workItems B).foldl (loadItem N B a b gj gi kb) st.2
  let c := (workItems B).foldl (computeItem N B mulAcc gj gi t) st.1
  (c, t)

/-- The kernel body run by the work-group `g = (gj, gi)`: `kb = 0 .. N/B - 1`. -/
def runGroup {α γ : Type} (N B : Nat) (mulAcc : γ → α → α → γ) (a b : Nat → α)
    (st : Buf γ × Local α) (g : Nat × Nat) : Buf γ × Local α :=
  (List.range (N / B)).foldl (sweepStep N B mulAcc a b g.1 g.2) st

/-- The launch `parallel_for(nd_range<2>((N, N), (B, B)))`: all `(N/B) × (N/B)`
work-groups; returns the content of the buffer of `c`. -/
def matrix_mul {α γ : Type} (N B : Nat) (mulAcc : γ → α → α → γ) (a b : Nat → α)
    (c : Buf γ) (t0 : Local α) : Buf γ :=
  ((workItems (N / B)).foldl (runGroup N B mulAcc a b) (c, t0)).1

/-- The `+=` of line 91 in exact arithmetic. -/
def fma {R : Type} [Add R] [Mul R] (c x y : R) : R := c + x * y

/-- Lines 108-112: the serial reference value `gold` of element `(j, i)`. -/
def gold {R : Type} [Zero R] [Add R] [Mul R] (N : Nat) (a b : Nat → R) (j i : Nat) : R :=
  (List.range N).foldl (fun g k => g + a (j * N + k) * b (k * N + i)) 0

/-- The term added by work-item `(j, i)` in sweep step `kb`, read from global
memory. -/
def sweepTerm {α γ : Type} (N B : Nat) (mulAcc : γ → α → α → γ) (a b : Nat → α)
    (j i : Nat) (v : γ) (kb : Nat) : γ :=
  (List.range B).foldl
    (fun acc k => mulAcc acc (a (idx2 N j (kb * B + k))) (b (idx2 N (kb * B + k) i))) v

/-- The value that the owner of cell `(j, i)` leaves there, from the value `v`
found before the launch: the two nested loops of the kernel body. -/
def sweepAll {α γ : Type} (N B : Nat) (mulAcc : γ → α → α → γ) (a b : Nat → α)
    (j i : Nat) (v : γ) : γ :=
  (List.range (N / B)).foldl (sweepTerm N B mulAcc a b j i) v

/-- Instrumentation of `c[j][i] += x * y`: the list of operand pairs seen so far. -/
def traceAcc {α : Type} (acc : List (α × α)) (x y : α) : List (α × α) := acc ++ [(x, y)]

/-- Instrumentation of `c[j][i] += x * y`: the number of stores so far. -/
def countAcc {α : Type} (n : Nat) (_x _y : α) : Nat := n + 1

/-- Position of a work-item in the kernel body (lines 78-97): about to store
into `a_tile` (line 81) or `b_tile` (line 82) in sweep step `kb`, waiting at the
first barrier (line 86), about to read `a_tile[lj][k]` or `b_tile[k][li]` (line
91), waiting at the second barrier (line 96), or past the loop. -/
inductive PC where
  | loadA (kb : Nat)
  | loadB (kb : Nat)
  | bar1 (kb : Nat)
  | accA (kb k : Nat)
  | accB (kb k : Nat)
  | bar2 (kb : Nat)
  | done

/-- Entry of `for (kb = 0; kb < N/B; ++kb)`, with `T = N/B`. -/
def PC.start (T : Nat) : PC := if 0 < T then PC.loadA 0 else PC.done

/-- Where a work-item resumes when the barrier it waits at is released. -/
def PC.afterBarrier (B T : Nat) : PC → PC
  | PC.bar1 kb => if 0 < B then PC.accA kb 0 else PC.bar2 kb
  | PC.bar2 kb => if kb + 1 < T then PC.loadA (kb + 1) else PC.done
  | pc => pc

/-- The work-item waits at a barrier. -/
def PC.isBarrier : PC → Bool
  | PC.bar1 _ => true
  | PC.bar2 _ => true
  | _ => false

/-- The work-item is about to access a tile. -/
def PC.isAccess : PC → Bool
  | PC.loadA _ => true
  | PC.loadB _ => true
  | PC.accA _ _ => true
  | PC.accB _ _ => true
  | _ => false

/-- The work-item has finished all its reads of sweep step `kb`. -/
def PC.readsDone (kb : Nat) : PC → Bool
  | PC.loadA kb' => decide (kb < kb')
  | PC.loadB kb' => decide (kb < kb')
  | PC.bar1 kb' => decide (kb < kb')
  | PC.accA kb' _ => decide (kb < kb')
  | PC.accB kb' _ => decide (kb < kb')
  | PC.bar2 kb' => decide (kb ≤ kb')
  | PC.done => true

/-- State of a work-group: the position of each work-item `(lj, li)`, and for
each tile cell the sweep step of the last store into it (`none`: not stored to
since the launch). -/
structure Group where
  pc : Nat × Nat → PC
  a_tile : Nat → Nat → Option Nat
  b_tile : Nat → Nat → Option Nat

/-- The work-group at launch. -/
def Group.init (T : Nat) : Group :=
  { pc := fun _ => PC.start T, a_tile := fun _ _ => none, b_tile := fun _ _ => none }

/-- Move work-item `w` to position `p`. -/
def Group.goto (s : Group) (w : Nat × Nat) (p : PC) : Nat × Nat → PC :=
  fun w' => if w' = w then p else s.pc w'

/-- One tile access of work-item `w = (lj, li)`: the store of line 81, the
store of line 82, or one of the two reads of line 91. -/
def Group.access (B : Nat) (s : Group) (w : Nat × Nat) : Group :=
  match s.pc w with
  | PC.loadA kb =>
      { s with a_tile := set2 s.a_tile w.1 w.2 (some kb), pc := s.goto w (PC.loadB kb) }
  | PC.loadB kb =>
      { s with b_tile := set2 s.b_tile w.1 w.2 (some kb), pc := s.goto w (PC.bar1 kb) }
  | PC.accA kb k => { s with pc := s.goto w (PC.accB kb k) }
  | PC.accB kb k =>
      { s with pc := s.goto w (if k + 1 < B then PC.accA kb (k + 1) else PC.bar2 kb) }
  | _ => s

/-- The barrier opens: every work-item resumes after the barrier it waits at. -/
def Group.release (B T : Nat) (s : Group) : Group :=
  { s with pc := fun w => (s.pc w).afterBarrier B T }

/-- One step of a work-group of `B × B` work-items: some work-item that is not
at a barrier performs its next tile access, or all work-items wait at a barrier
and the barrier opens. -/
inductive Group.Step (B T : Nat) : Group → Group → Prop where
  | access (s : Group) (w : Nat × Nat) (hw : w ∈ workItems B)
      (hpc : (s.pc w).isAccess = true) : Group.Step B T s (s.access B w)
  | barrier (s : Group) (hall : ∀ w ∈ workItems B, (s.pc w).isBarrier = true) :
      Group.Step B T s (s.release B T)

/-- The states of a work-group in all interleavings of its work-items. -/
inductive Group.Reachable (B T : Nat) : Group → Prop where
  | init : Group.Reachable B T (Group.init T)
  | step (s s' : Group) (hs : Group.Reachable B T s) (hstep : Group.Step B T s s') :
      Group.Reachable B T s'

/-- Number of barriers a work-item at this position has passed. -/
def PC.phase (T : Nat) : PC → Nat
  | PC.loadA kb => 2 * kb
  | PC.loadB kb => 2 * kb
  | PC.bar1 kb => 2 * kb
  | PC.accA kb _ => 2 * kb + 1
  | PC.accB kb _ => 2 * kb + 1
  | PC.bar2 kb => 2 * kb + 1
  | PC.done => 2 * T

/-- The loop counters of the position are within their bounds. -/
def PC.wf (B T : Nat) : PC → Prop
  | PC.loadA kb => kb < T
  | PC.loadB kb => kb < T
  | PC.bar1 kb => kb < T
  | PC.accA kb k => kb < T ∧ k < B
  | PC.accB kb k => kb < T ∧ k < B
  | PC.bar2 kb => kb < T
  | PC.done => True

/-- The sweep step whose store into `a_tile` the work-item has done and not yet
followed by the next one. -/
def PC.aStored : PC → Option Nat
  | PC.loadB kb => some kb
  | PC.bar1 kb => some kb
  | PC.accA kb _ => some kb
  | PC.accB kb _ => some kb
  | PC.bar2 kb => some kb
  | _ => none

/-- The sweep step whose store into `b_tile` the work-item has done and not yet
followed by the next one. -/
def PC.bStored : PC → Option Nat
  | PC.bar1 kb => some kb
  | PC.accA kb _ => some kb
  | PC.accB kb _ => some kb
  | PC.bar2 kb => some kb
  | _ => none

/-- The invariant of the protocol: all work-items of the group are between the
same two barriers, and each work-item's own cells hold its latest stores. -/
def Group.Inv (B T : Nat) (s : Group) : Prop :=
  (∀ w ∈ workItems B, ∀ w' ∈ workItems B, (s.pc w).phase T = (s.pc w').phase T) ∧
  (∀ w ∈ workItems B, (s.pc w).wf B T) ∧
  (∀ w ∈ workItems B, ∀ kb, (s.pc w).aStored = some kb → s.a_tile w.1 w.2 = some kb) ∧
  (∀ w ∈ workItems B, ∀ kb, (s.pc w).bStored = some kb → s.b_tile w.1 w.2 = some kb)

/-- One scheduling decision: `some w` lets work-item `w` perform its next tile
access, `none` opens the barrier. -/
def Group.fire (B T : Nat) (s : Group) : Option (Nat × Nat) → Group
  | some w => s.access B w
  | none => s.release B T

/-- The scheduling decision is allowed in state `s`: the work-item belongs to the
group and is about to access a tile, or every work-item of the group waits at a
barrier. -/
def Group.enabled (B : Nat) (s : Group) : Option (Nat × Nat) → Bool
  | some w => decide (w ∈ workItems B) && (s.pc w).isAccess
  | none => (workItems B).all (fun w => (s.pc w).isBarrier)

/-- Every decision of the schedule is allowed at the time it is taken. -/
def Group.admits (B T : Nat) : List (Option (Nat × Nat)) → Group → Bool
  | [], _ => true
  | e :: es, s => s.enabled B e && Group.admits B T es (s.fire B T e)

/-- The state after a schedule. -/
def Group.run (B T : Nat) (sched : List (Option (Nat × Nat))) (s : Group) : Group :=
  sched.foldl (Group.fire B T) s

/-- An interleaving of the four work-items of a `2 × 2` group: the eight stores
of sweep step 0 in mixed order, the first barrier, then two reads by `(0, 0)` and
one read by `(1, 0)`. -/
def Group.schedRead : List (Option (Nat × Nat)) :=
  [some (1, 1), some (0, 0), some (0, 1), some (1, 0), some (0, 0), some (1, 0), some (1, 1),
    some (0, 1), none, some (0, 0), some (0, 0), some (1, 0)]

/-- The state after `schedRead`, with two sweep steps to run: `(0, 0)` is about
to read `a_tile[0][1]`, a cell stored by `(0, 1)`, and `(1, 0)` is about to read
`b_tile[0][0]`, a cell stored by `(0, 0)`. -/
def Group.sampleRead : Group := Group.run 2 2 Group.schedRead (Group.init 2)

/-- An interleaving of the four work-items of a `2 × 2` group through the whole
sweep step 0 (stores, barrier, the sixteen reads in mixed order, barrier) and the
first store of sweep step 1 by `(0, 0)`. -/
def Group.schedStore : List (Option (Nat × Nat)) :=
  [some (1, 1), some (0, 0), some (0, 1), some (1, 0), some (0, 0), some (1, 0), some (1, 1),
    some (0, 1), none,
    some (0, 0), some (1, 1), some (1, 1), some (0, 1), some (1, 0), some (0, 0), some (0, 1),
    some (1, 0), some (1, 1), some (0, 0), some (1, 0), some (0, 1), some (0, 1), some (1, 1),
    some (1, 0), some (0, 0), none,
    some (0, 0)]

/-- The state after `schedStore`, with two sweep steps to run: `(0, 0)` has
overwritten `a_tile[0][0]` for sweep step 1 and is about to store into
`b_tile[0][0]`. -/
def Group.sampleStore : Group := Group.run 2 2 Group.schedStore (Group.init 2)

end MatrixMulLocal

/-! # Serial reference and verification (`10_matrix_mul_mkl.cpp`) -/

namespace MatrixMulMkl

open MatrixMulLocal

/-- The expression `M` after macro expansion: `SIZE/8`. -/
def M (SIZE : Nat) : Nat := SIZE / 8

/-- The expression `N` after macro expansion: `SIZE/4`. -/
def N (SIZE : Nat) : Nat := SIZE / 4

/-- The expression `P` after macro expansion: `SIZE/2`. -/
def P (SIZE : Nat) : Nat := SIZE / 2

/-- The expression `i*P + j` after macro expansion: `i*SIZE/2 + j`. -/
def iP (SIZE i j : Nat) : Nat := i * SIZE / 2 + j

/-- The expression `i*N + d` after macro expansion: `i*SIZE/4 + d`. -/
def iN (SIZE i d : Nat) : Nat := i * SIZE / 4 + d

/-- Two's-complement wrap of a mathematical integer into `int` (32 bits). -/
def wrapInt (x : Int) : Int := (x + 2147483648) % 4294967296 - 2147483648

/-- The expression `M*N` (line 88) after macro expansion, `SIZE/8*SIZE/4`, in
`int` arithmetic: quotient truncated toward zero, product wrapped to 32 bits. -/
def MN (SIZE : Nat) : Int := Int.tdiv (wrapInt (Int.tdiv (SIZE : Int) 8 * (SIZE : Int))) 4

/-- The expression `N*P` (line 89) after macro expansion, `SIZE/4*SIZE/2`, in
`int` arithmetic. -/
def NP (SIZE : Nat) : Int := Int.tdiv (wrapInt (Int.tdiv (SIZE : Int) 4 * (SIZE : Int))) 2

/-- The expression `M*P` (lines 90-92) after macro expansion, `SIZE/8*SIZE/2`, in
`int` arithmetic. -/
def MP (SIZE : Nat) : Int := Int.tdiv (wrapInt (Int.tdiv (SIZE : Int) 8 * (SIZE : Int))) 2

/-- Line 30: `std::fabs(a-b) < 1.0e-08`, over exact rationals. -/
def ValueSame (a b : ℚ) : Bool := decide (|a - b| < 1 / 100000000)

/-- A line written to `std::cout` by `VerifyResult`. -/
inductive Line (α : Type) where
  | mismatch (i j : Nat) (expected got : α)
  | success
  | fail

/-- Lines 33-56: `VerifyResult`, with the comparison of two elements as a
parameter; returns the lines printed and the return value. -/
def VerifyResult {α : Type} (same : α → α → Bool) (SIZE : Nat) (c_A c_B : Nat → α) :
    List (Line α) × Int :=
  let st := (List.range (M SIZE)).foldl (fun st i =>
    (List.range (P SIZE)).foldl (fun (st : List (Line α) × Bool) j =>
      if !same (c_A (iP SIZE i j)) (c_B (iP SIZE i j)) then
        (st.1 ++ [Line.mismatch i j (c_A (iP SIZE i j)) (c_B (iP SIZE i j))], true)
      else st) st) ([], false)
  if !st.2 then (st.1 ++ [Line.success], 0) else (st.1 ++ [Line.fail], -1)

/-- The mismatches of `c_A` and `c_B`, row by row: the pairs `(i, j)` of the
`M × P` index space on which the comparison fails, with both elements. -/
def mismatches {α : Type} (same : α → α → Bool) (SIZE : Nat) (c_A c_B : Nat → α) :
    List (Line α) :=
  (List.range (M SIZE)).flatMap (fun i =>
    ((List.range (P SIZE)).filter (fun j => !same (c_A (iP SIZE i j)) (c_B (iP SIZE i j)))).map
      (fun j => Line.mismatch i j (c_A (iP SIZE i j)) (c_B (iP SIZE i j))))

/-- Lines 107-113: the triple loop that fills `C_serial`, zero-initialised by
`new double[M*P]{}`. -/
def C_serial {R : Type} [Zero R] [Add R] [Mul R] (SIZE : Nat) (A B : Nat → R) : Buf R :=
  (List.range (M SIZE)).foldl (fun c i =>
    (List.range (P SIZE)).foldl (fun c j =>
      (List.range (N SIZE)).foldl (fun c d =>
        c.set (iP SIZE i j) (c.get (iP SIZE i j) + A (iN SIZE i d) * B (iP SIZE d j))) c) c)
    ⟨fun _ => 0⟩

end MatrixMulMkl

/-! # Linear DAG of copies (`1_dag_queue_functor.cpp`) -/

namespace DagQueueFunctor

/-- Two's-complement wrap of a mathematical integer into `cl_int` (32 bits). -/
def wrap32 (x : Int) : Int := (x + 2147483648) % 4294967296 - 2147483648

/-- Line 15: `accessorW[idx] = accessorR[idx] + 1`, for the work-item `idx`. -/
def memcopy_kernel (accessorR : List Int) (accessorW : List Int) (idx : Nat) : List Int :=
  accessorW.set idx (wrap32 (accessorR.getD idx 0 + 1))

/-- Lines 23-30: the command group `f_copy`: a `parallel_for` of `memcopy_kernel`
over `range<1>(global_range)`; returns the content of `bufferW`. -/
def f_copy (global_range : Nat) (bufferW bufferR : List Int) : List Int :=
  (List.range global_range).foldl (memcopy_kernel bufferR) bufferW

/-- Line 58: `std::iota(begin(A), end(A), 0)` on a vector of `global_range` ints. -/
def iota (global_range : Nat) : List Int := (List.range global_range).map (fun (idx : Nat) => (idx : Int))

/-- Lines 79-85: the three submissions, run in the order of their data
dependencies `A -> B -> C -> A`; `B0` and `C0` are the uninitialised contents of
`bufferB` and `bufferC`. Returns `A` after the write-back at the end of the scope. -/
def linear_dag (global_range : Nat) (A B0 C0 : List Int) : List Int :=
  let B1 := f_copy global_range B0 A
  let C1 := f_copy global_range C0 B1
  f_copy global_range A C1

/-- Lines 87-91: the `for_each` over `A`; true when `assert(v == idx + 3)` holds
at every element. -/
def asserts_hold (A : List Int) : Bool :=
  (A.foldl (fun (st : Bool × Int) v => (st.1 && decide (v = wrap32 (st.2 + 3)), wrap32 (st.2 + 1)))
    (true, 0)).1

/-- The program: `A` after the three copies, from `A = iota`. -/
def main (global_range : Nat) (B0 C0 : List Int) : List Int :=
  linear_dag global_range (iota global_range) B0 C0

end DagQueueFunctor

/-! # Proofs -/

namespace MatrixMulLocal

/-! ### Elementary facts about the index spaces -/

theorem mem_workItems (B : Nat) (w : Nat × Nat) :
    w ∈ workItems B ↔ w.1 < B ∧ w.2 < B := by
  obtain ⟨x, y⟩ := w
  simp only [workItems, List.mem_flatMap, List.mem_range, List.mem_map, Prod.mk.injEq]
  constructor
  · rintro ⟨lj, hlj, li, hli, rfl, rfl⟩
    exact ⟨hlj, hli⟩
  · rintro ⟨hx, hy⟩
    exact ⟨x, hx, y, hy, rfl, rfl⟩

theorem nodup_workItems (B : Nat) : (workItems B).Nodup := by
  unfold workItems
  rw [List.nodup_flatMap]
  refine ⟨fun lj _ => ?_, ?_⟩
  · refine (List.nodup_range B).map ?_
    intro x y h
    exact (Prod.mk.inj h).2
  · refine (List.nodup_range B).pairwise_of_forall_ne ?_
    intro x _ y _ hxy
    simp only [Function.onFun, List.disjoint_left, List.mem_map, List.mem_range]
    rintro p ⟨_, _, rfl⟩ ⟨_, _, h⟩
    exact hxy (Prod.mk.inj h).1.symm

theorem idx2_inj {N j i j' i' : Nat} (hi : i < N) (hi' : i' < N)
    (h : idx2 N j i = idx2 N j' i') : j = j' ∧ i = i' := by
  unfold idx2 at h
  have h1 : (j * N + i) / N = (j' * N + i') / N := by rw [h]
  have h2 : (j * N + i) % N = (j' * N + i') % N := by rw [h]
  have hN : 0 < N := by omega
  rw [Nat.mul_comm j, Nat.mul_comm j', Nat.mul_add_div hN, Nat.mul_add_div hN,
    Nat.div_eq_of_lt hi, Nat.div_eq_of_lt hi'] at h1
  rw [Nat.mul_comm j, Nat.mul_comm j', Nat.mul_add_mod, Nat.mul_add_mod, Nat.mod_eq_of_lt hi,
    Nat.mod_eq_of_lt hi'] at h2
  exact ⟨by omega, h2⟩

theorem Buf.get_set {γ : Type} (c : Buf γ) (p q : Nat) (v : γ) :
    (c.set p v).get q = if q = p then v else c.get q := rfl

/-! ### Folds that update owned cells -/

/-- A fold whose steps each transform the observed value only when they own
it, and which has at most one owner in the list. -/
theorem foldl_owned {S K V : Type} (step : S → K → S) (obs : S → V) (own : K → Prop)
    (F : K → V → V) (ks : List K)
    (hown : ∀ s k, k ∈ ks → own k → obs (step s k) = F k (obs s))
    (hother : ∀ s k, k ∈ ks → ¬ own k → obs (step s k) = obs s)
    (hdisj : ∀ k ∈ ks, ∀ k' ∈ ks, own k → own k' → k = k') (hnd : ks.Nodup) (s : S) :
    (∀ k ∈ ks, own k → obs (ks.foldl step s) = F k (obs s)) ∧
    ((∀ k ∈ ks, ¬ own k) → obs (ks.foldl step s) = obs s) := by
  induction ks generalizing s with
  | nil => simp
  | cons k0 ks ih =>
    have hnd' := (List.nodup_cons.mp hnd)
    have ih' := fun s => ih (fun s k hk => hown s k (List.mem_cons_of_mem _ hk))
      (fun s k hk => hother s k (List.mem_cons_of_mem _ hk))
      (fun k hk k' hk' => hdisj k (List.mem_cons_of_mem _ hk) k' (List.mem_cons_of_mem _ hk'))
      hnd'.2 s
    constructor
    · intro k hk hok
      rw [List.foldl_cons]
      rcases List.mem_cons.mp hk with rfl | hk'
      · rw [(ih' _).2, hown s k (List.mem_cons_self _ _) hok]
        intro k' hk' hok'
        have := hdisj k' (List.mem_cons_of_mem _ hk') k (List.mem_cons_self _ _) hok' hok
        exact hnd'.1 (this ▸ hk')
      · rw [(ih' _).1 k hk' hok, hother s k0 (List.mem_cons_self _ _)]
        intro hok0
        have := hdisj k0 (List.mem_cons_self _ _) k hk hok0 hok
        exact hnd'.1 (this ▸ hk')
    · intro hno
      rw [List.foldl_cons, (ih' _).2 (fun k hk => hno k (List.mem_cons_of_mem _ hk)),
        hother s k0 (List.mem_cons_self _ _) (hno k0 (List.mem_cons_self _ _))]

/-- Repeated read-modify-write of one cell. -/
theorem foldl_set_get {γ K : Type} (f : γ → K → γ) (p : Nat) (ks : List K) (c : Buf γ) (q : Nat) :
    (ks.foldl (fun c k => c.set p (f (c.get p) k)) c).get q =
      if q = p then ks.foldl f (c.get p) else c.get q := by
  induction ks generalizing c with
  | nil => by_cases h : q = p <;> simp [h]
  | cons k ks ih =>
    rw [List.foldl_cons, ih, List.foldl_cons]
    by_cases h : q = p <;> simp [h, Buf.get_set]

/-! ### The load phase -/

theorem load_fold {α : Type} (N B : Nat) (a b : Nat → α) (gj gi kb : Nat)
    (ws : List (Nat × Nat)) (t : Local α) (x y : Nat) :
    ((ws.foldl (loadItem N B a b gj gi kb) t).a_tile x y =
        if (x, y) ∈ ws then a (idx2 N (gj * B + x) (kb * B + y)) else t.a_tile x y) ∧
    ((ws.foldl (loadItem N B a b gj gi kb) t).b_tile x y =
        if (x, y) ∈ ws then b (idx2 N (kb * B + x) (gi * B + y)) else t.b_tile x y) := by
  induction ws generalizing t with
  | nil => simp
  | cons w ws ih =>
    obtain ⟨lj, li⟩ := w
    rw [List.foldl_cons]
    by_cases hmem : (x, y) ∈ ws
    · simp [ih, hmem]
    · by_cases hw : x = lj ∧ y = li
      · obtain ⟨rfl, rfl⟩ := hw
        simp [ih, hmem, loadItem, set2]
      · have hne : ¬ (x, y) = (lj, li) := fun h => hw (Prod.mk.inj h)
        simp [ih, hmem, loadItem, set2, hw, hne]

/-- After the load phase and the barrier, the tiles hold the `kb`-th tiles of
the rows of `a` and of the columns of `b` of the group. -/
theorem load_phase {α : Type} (N B : Nat) (a b : Nat → α) (gj gi kb : Nat)
    (t : Local α) (x y : Nat) (hx : x < B) (hy : y < B) :
    ((workItems B).foldl (loadItem N B a b gj gi kb) t).a_tile x y =
        a (idx2 N (gj * B + x) (kb * B + y)) ∧
    ((workItems B).foldl (loadItem N B a b gj gi kb) t).b_tile x y =
        b (idx2 N (kb * B + x) (gi * B + y)) := by
  have hmem : (x, y) ∈ workItems B := (mem_workItems B (x, y)).mpr ⟨hx, hy⟩
  have h := load_fold N B a b gj gi kb (workItems B) t x y
  simpa [hmem] using h

/-! ### The accumulation phase -/

theorem computeItem_get {α γ : Type} (N B : Nat) (mulAcc : γ → α → α → γ) (gj gi : Nat)
    (t : Local α) (c : Buf γ) (w : Nat × Nat) (q : Nat) :
    (computeItem N B mulAcc gj gi t c w).get q =
      if q = idx2 N (gj * B + w.1) (gi * B + w.2) then
        (List.range B).foldl (fun acc k => mulAcc acc (t.a_tile w.1 k) (t.b_tile k w.2)) (c.get q)
      else c.get q := by
  unfold computeItem
  simp only []
  rw [foldl_set_get (fun acc k => mulAcc acc (t.a_tile w.1 k) (t.b_tile k w.2))]
  by_cases h : q = idx2 N (gj * B + w.1) (gi * B + w.2) <;> simp [h]

theorem group_cell {N B gj gi j i : Nat} (hB : 0 < B) (hgi : gi < N / B) (hi : i < N)
    (w : Nat × Nat) (hw : w ∈ workItems B) :
    idx2 N j i = idx2 N (gj * B + w.1) (gi * B + w.2) ↔
      (j / B = gj ∧ i / B = gi) ∧ w = (j % B, i % B) := by
  obtain ⟨lj, li⟩ := w
  obtain ⟨hlj, hli⟩ := (mem_workItems B (lj, li)).mp hw
  simp only at hlj hli
  have hlt : gi * B + li < N := by
    have h1 : (gi + 1) * B ≤ N / B * B := Nat.mul_le_mul_right B hgi
    have h2 : N / B * B ≤ N := Nat.div_mul_le_self N B
    have h3 : (gi + 1) * B = gi * B + B := by ring
    omega
  constructor
  · intro h
    obtain ⟨rfl, rfl⟩ := idx2_inj hi hlt h
    have e1 : (gj * B + lj) / B = gj := by
      rw [Nat.mul_comm, Nat.mul_add_div hB, Nat.div_eq_of_lt hlj, Nat.add_zero]
    have e2 : (gi * B + li) / B = gi := by
      rw [Nat.mul_comm, Nat.mul_add_div hB, Nat.div_eq_of_lt hli, Nat.add_zero]
    have e3 : (gj * B + lj) % B = lj := by
      rw [Nat.mul_comm, Nat.mul_add_mod, Nat.mod_eq_of_lt hlj]
    have e4 : (gi * B + li) % B = li := by
      rw [Nat.mul_comm, Nat.mul_add_mod, Nat.mod_eq_of_lt hli]
    simp [e1, e2, e3, e4]
  · rintro ⟨⟨rfl, rfl⟩, h⟩
    obtain ⟨rfl, rfl⟩ := Prod.mk.inj h
    rw [Nat.mul_comm (j / B), Nat.mul_comm (i / B), Nat.div_add_mod, Nat.div_add_mod]

/-- Effect of one sweep step of group `(gj, gi)` on the cell of `c` at `(j, i)`. -/
theorem sweepStep_get {α γ : Type} (N B : Nat) (mulAcc : γ → α → α → γ) (a b : Nat → α)
    (gj gi : Nat) (hB : 0 < B) (hgi : gi < N / B) (j i : Nat) (hi : i < N)
    (st : Buf γ × Local α) (kb : Nat) :
    (sweepStep N B mulAcc a b gj gi st kb).1.get (idx2 N j i) =
      if j / B = gj ∧ i / B = gi then sweepTerm N B mulAcc a b j i (st.1.get (idx2 N j i)) kb
      else st.1.get (idx2 N j i) := by
  unfold sweepStep
  simp only []
  generalize ht : (workItems B).foldl (loadItem N B a b gj gi kb) st.2 = t
  have hload := fun x y hx hy => load_phase N B a b gj gi kb st.2 x y hx hy
  rw [ht] at hload
  have key := foldl_owned (computeItem N B mulAcc gj gi t) (fun c => c.get (idx2 N j i))
    (fun w => idx2 N j i = idx2 N (gj * B + w.1) (gi * B + w.2))
    (fun w v => (List.range B).foldl
      (fun acc k => mulAcc acc (t.a_tile w.1 k) (t.b_tile k w.2)) v)
    (workItems B)
    (fun s k _ hk => by simp only [computeItem_get]; rw [if_pos hk])
    (fun s k _ hk => by simp only [computeItem_get]; rw [if_neg hk])
    (fun k hk k' hk' h h' => by
      have e := ((group_cell hB hgi hi k hk).mp h).2
      have e' := ((group_cell hB hgi hi k' hk').mp h').2
      rw [e, e'])
    (nodup_workItems B) st.1
  by_cases hg : j / B = gj ∧ i / B = gi
  · rw [if_pos hg]
    have hw : (j % B, i % B) ∈ workItems B :=
      (mem_workItems B _).mpr ⟨Nat.mod_lt _ hB, Nat.mod_lt _ hB⟩
    have := key.1 (j % B, i % B) hw ((group_cell hB hgi hi _ hw).mpr ⟨hg, rfl⟩)
    simp only at this
    rw [this]
    unfold sweepTerm
    apply List.foldl_ext
    intro acc k hk
    have hk' : k < B := List.mem_range.mp hk
    rw [(hload (j % B) k (Nat.mod_lt _ hB) hk').1, (hload k (i % B) hk' (Nat.mod_lt _ hB)).2]
    have e1 : gj * B + j % B = j := by rw [← hg.1, Nat.mul_comm, Nat.div_add_mod]
    have e2 : gi * B + i % B = i := by rw [← hg.2, Nat.mul_comm, Nat.div_add_mod]
    rw [e1, e2]
  · rw [if_neg hg]
    exact key.2 (fun k hk h => hg ((group_cell hB hgi hi k hk).mp h).1)

/-! ### A work-group, and the grid -/

theorem sweep_fold_get {α γ : Type} (N B : Nat) (mulAcc : γ → α → α → γ) (a b : Nat → α)
    (gj gi : Nat) (hB : 0 < B) (hgi : gi < N / B) (j i : Nat) (hi : i < N)
    (kbs : List Nat) (st : Buf γ × Local α) :
    (kbs.foldl (sweepStep N B mulAcc a b gj gi) st).1.get (idx2 N j i) =
      if j / B = gj ∧ i / B = gi then
        kbs.foldl (sweepTerm N B mulAcc a b j i) (st.1.get (idx2 N j i))
      else st.1.get (idx2 N j i) := by
  induction kbs generalizing st with
  | nil => by_cases h : j / B = gj ∧ i / B = gi <;> simp [h]
  | cons kb kbs ih =>
    rw [List.foldl_cons, ih, sweepStep_get N B mulAcc a b gj gi hB hgi j i hi, List.foldl_cons]
    by_cases h : j / B = gj ∧ i / B = gi <;> simp [h]

theorem runGroup_get {α γ : Type} (N B : Nat) (mulAcc : γ → α → α → γ) (a b : Nat → α)
    (hB : 0 < B) (j i : Nat) (hi : i < N) (g : Nat × Nat) (hg : g ∈ workItems (N / B))
    (st : Buf γ × Local α) :
    (runGroup N B mulAcc a b st g).1.get (idx2 N j i) =
      if g = (j / B, i / B) then sweepAll N B mulAcc a b j i (st.1.get (idx2 N j i))
      else st.1.get (idx2 N j i) := by
  obtain ⟨gj, gi⟩ := g
  have hgi : gi < N / B := ((mem_workItems _ _).mp hg).2
  unfold runGroup sweepAll
  rw [sweep_fold_get N B mulAcc a b gj gi hB hgi j i hi]
  by_cases h : j / B = gj ∧ i / B = gi
  · obtain ⟨rfl, rfl⟩ := h
    simp
  · have h' : ¬ (gj, gi) = (j / B, i / B) := fun e =>
      h ⟨(Prod.mk.inj e).1.symm, (Prod.mk.inj e).2.symm⟩
    rw [if_neg h, if_neg h']

/-- The cell of `c` at `(j, i)` after the launch: its previous content, run
through the kernel body of its owner. -/
theorem matrix_mul_get {α γ : Type} (N B : Nat) (mulAcc : γ → α → α → γ) (a b : Nat → α)
    (c : Buf γ) (t0 : Local α) (hB : 0 < B) (j i : Nat)
    (hj : j < N / B * B) (hi : i < N / B * B) :
    (matrix_mul N B mulAcc a b c t0).get (idx2 N j i) =
      sweepAll N B mulAcc a b j i (c.get (idx2 N j i)) := by
  have hiN : i < N := lt_of_lt_of_le hi (Nat.div_mul_le_self N B)
  have key := foldl_owned (runGroup N B mulAcc a b)
    (fun st : Buf γ × Local α => st.1.get (idx2 N j i))
    (fun g => g = (j / B, i / B)) (fun _ v => sweepAll N B mulAcc a b j i v)
    (workItems (N / B))
    (fun s g hg hk => by
      simp only [runGroup_get N B mulAcc a b hB j i hiN g hg]; rw [if_pos hk])
    (fun s g hg hk => by
      simp only [runGroup_get N B mulAcc a b hB j i hiN g hg]; rw [if_neg hk])
    (fun k _ k' _ h h' => by rw [h, h'])
    (nodup_workItems (N / B)) (c, t0)
  have hmem : (j / B, i / B) ∈ workItems (N / B) :=
    (mem_workItems _ _).mpr ⟨Nat.div_lt_of_lt_mul (by rwa [Nat.mul_comm] at hj),
      Nat.div_lt_of_lt_mul (by rwa [Nat.mul_comm] at hi)⟩
  exact key.1 _ hmem rfl

/-! ### Flattening the two loops -/

theorem foldl_blocks {γ : Type} (f : γ → Nat → γ) (B T : Nat) (v : γ) :
    (List.range T).foldl (fun v kb => (List.range B).foldl (fun acc k => f acc (kb * B + k)) v) v =
      (List.range (T * B)).foldl f v := by
  induction T with
  | zero => simp
  | succ T ih =>
    rw [List.range_succ, List.foldl_append, ih, Nat.succ_mul, List.range_add, List.foldl_append,
      List.foldl_map]
    simp

theorem sweepAll_eq {α γ : Type} (N B : Nat) (mulAcc : γ → α → α → γ) (a b : Nat → α)
    (j i : Nat) (v : γ) :
    sweepAll N B mulAcc a b j i v =
      (List.range (N / B * B)).foldl
        (fun acc k => mulAcc acc (a (idx2 N j k)) (b (idx2 N k i))) v := by
  unfold sweepAll sweepTerm
  exact foldl_blocks (fun acc k => mulAcc acc (a (idx2 N j k)) (b (idx2 N k i))) B (N / B) v

theorem foldl_fma {R : Type} [Semiring R] (x : Nat → R) (n : Nat) (v : R) :
    (List.range n).foldl (fun acc k => acc + x k) v =
      v + (List.range n).foldl (fun acc k => acc + x k) 0 := by
  induction n with
  | zero => simp
  | succ n ih => rw [List.range_succ, List.foldl_append, List.foldl_append, ih]; simp [add_assoc]

theorem foldl_add_eq_sum {R : Type} [Semiring R] (x : Nat → R) (n : Nat) :
    (List.range n).foldl (fun acc k => acc + x k) 0 = ∑ k in Finset.range n, x k := by
  induction n with
  | zero => simp
  | succ n ih => rw [List.range_succ, List.foldl_append, ih, Finset.sum_range_succ]; simp

theorem foldl_traceAcc {α : Type} (x y : Nat → α) (ks : List Nat) (v : List (α × α)) :
    ks.foldl (fun acc k => traceAcc acc (x k) (y k)) v = v ++ ks.map (fun k => (x k, y k)) := by
  induction ks generalizing v with
  | nil => simp
  | cons k ks ih => rw [List.foldl_cons, ih]; simp [traceAcc]

theorem foldl_countAcc {α : Type} (x y : Nat → α) (ks : List Nat) (v : Nat) :
    ks.foldl (fun acc k => countAcc acc (x k) (y k)) v = v + ks.length := by
  induction ks generalizing v with
  | nil => simp
  | cons k ks ih => rw [List.foldl_cons, ih]; simp [countAcc]; omega

theorem flatMap_blocks (B T : Nat) :
    (List.range T).flatMap (fun kb => (List.range B).map (fun k => kb * B + k)) =
      List.range (T * B) := by
  induction T with
  | zero => simp
  | succ T ih =>
    rw [List.range_succ, List.flatMap_append, ih, Nat.succ_mul, List.range_add]
    simp

/-- C1. Exact-arithmetic correctness of the tiled kernel: with `c` zero-filled,
a tile size `B > 0` that divides `N`, and any garbage in local memory, every
cell `(j, i)` of `c` holds after the launch the serial reference value `gold`,
which is the sum over `k < N` of `a[j*N+k] * b[k*N+i]`. -/
theorem tiled_gemm_correct {R : Type} [CommRing R] (N B : Nat) (hB : 0 < B) (hdiv : B ∣ N)
    (a b : Nat → R) (t0 : Local R) (j i : Nat) (hj : j < N) (hi : i < N) :
    (matrix_mul N B fma a b ⟨fun _ => 0⟩ t0).get (idx2 N j i) = gold N a b j i ∧
    gold N a b j i = ∑ k in Finset.range N, a (j * N + k) * b (k * N + i) := by
  have hN : N / B * B = N := Nat.div_mul_cancel hdiv
  refine ⟨?_, foldl_add_eq_sum (fun k => a (j * N + k) * b (k * N + i)) N⟩
  rw [matrix_mul_get N B fma a b _ t0 hB j i (by omega) (by omega), sweepAll_eq, hN]
  rfl

theorem tiled_gemm_correct_witness :
    (0 < 2 ∧ 2 ∣ 4 ∧ 2 < 4 ∧ 3 < 4) ∧
    ((matrix_mul 4 2 fma (fun p => if p / 4 = p % 4 then (1 : Int) else 0) (fun _ => 1)
        ⟨fun _ => 0⟩ ⟨fun _ _ => 0, fun _ _ => 0⟩).get (idx2 4 2 3) =
      gold 4 (fun p => if p / 4 = p % 4 then (1 : Int) else 0) (fun _ => 1) 2 3 ∧
    gold 4 (fun p => if p / 4 = p % 4 then (1 : Int) else 0) (fun _ => 1) 2 3 =
      ∑ k in Finset.range 4,
        (fun p => if p / 4 = p % 4 then (1 : Int) else 0) (2 * 4 + k) * (fun _ => 1) (k * 4 + 3)) ∧
    gold 4 (fun p => if p / 4 = p % 4 then (1 : Int) else 0) (fun _ => 1) 2 3 = 1 :=
  ⟨by decide,
    tiled_gemm_correct 4 2 (by decide) (by decide)
      (fun p => if p / 4 = p % 4 then (1 : Int) else 0) (fun _ => 1)
      ⟨fun _ _ => 0, fun _ _ => 0⟩ 2 3 (by decide) (by decide),
    by decide⟩

/-- C2. Tile coverage and accumulation order: run on operands that are their
own offsets, with the accumulation recording its operand pairs, the kernel
leaves in cell `(j, i)` the pairs `(A[j][k], B[k][i])` for `k = 0, 1, .., N-1`
in this order, as `N/B` consecutive blocks of `B` terms `k = kb*B + 0 .. kb*B + B-1`. -/
theorem tile_coverage (N B : Nat) (hB : 0 < B) (hdiv : B ∣ N) (t0 : Local Nat)
    (j i : Nat) (hj : j < N) (hi : i < N) :
    (matrix_mul N B traceAcc id id ⟨fun _ => []⟩ t0).get (idx2 N j i) =
        (List.range N).map (fun k => (idx2 N j k, idx2 N k i)) ∧
    (matrix_mul N B traceAcc id id ⟨fun _ => []⟩ t0).get (idx2 N j i) =
        (List.range (N / B)).flatMap (fun kb =>
          (List.range B).map (fun k => (idx2 N j (kb * B + k), idx2 N (kb * B + k) i))) ∧
    (List.range (N / B)).flatMap (fun kb => (List.range B).map (fun k => kb * B + k)) =
        List.range N := by
  have hN : N / B * B = N := Nat.div_mul_cancel hdiv
  have h1 : (matrix_mul N B traceAcc id id ⟨fun _ => []⟩ t0).get (idx2 N j i) =
      (List.range N).map (fun k => (idx2 N j k, idx2 N k i)) := by
    rw [matrix_mul_get N B traceAcc id id _ t0 hB j i (by omega) (by omega), sweepAll_eq, hN]
    simp only [id]
    rw [foldl_traceAcc (fun k => idx2 N j k) (fun k => idx2 N k i)]
    simp
  have h3 := flatMap_blocks B (N / B)
  rw [hN] at h3
  refine ⟨h1, ?_, h3⟩
  rw [h1, ← h3, List.map_flatMap]
  simp [List.map_map, Function.comp_def]

theorem tile_coverage_witness :
    (0 < 2 ∧ 2 ∣ 4 ∧ 2 < 4 ∧ 3 < 4) ∧
    ((matrix_mul 4 2 traceAcc id id ⟨fun _ => []⟩ ⟨fun _ _ => 0, fun _ _ => 0⟩).get (idx2 4 2 3) =
        (List.range 4).map (fun k => (idx2 4 2 k, idx2 4 k 3)) ∧
    (matrix_mul 4 2 traceAcc id id ⟨fun _ => []⟩ ⟨fun _ _ => 0, fun _ _ => 0⟩).get (idx2 4 2 3) =
        (List.range (4 / 2)).flatMap (fun kb =>
          (List.range 2).map (fun k => (idx2 4 2 (kb * 2 + k), idx2 4 (kb * 2 + k) 3))) ∧
    (List.range (4 / 2)).flatMap (fun kb => (List.range 2).map (fun k => kb * 2 + k)) =
        List.range 4) :=
  ⟨by decide, tile_coverage 4 2 (by decide) (by decide) _ 2 3 (by decide) (by decide)⟩

/-- C3. Disjoint writes: with `B > 0` dividing `N`, every work-item of the launch
stores to the row-major offset `j*N + i` of its global id
`(j, i) = (gj*B + lj, gi*B + li)` (`B` stores per sweep step) and to no other
offset; distinct work-items of the grid have distinct offsets; every offset
below `N*N` is the cell of exactly one work-item of the grid; and in the launch
every cell `(j, i)` of `c` is stored to (`N` stores in all, those of its owner). -/
theorem disjoint_writes {α γ : Type} (N B : Nat) (hB : 0 < B) (hdiv : B ∣ N) :
    (∀ (g w : Nat × Nat) (t : Local α) (c : Buf Nat),
      (computeItem N B countAcc g.1 g.2 t c w).get (idx2 N (g.1 * B + w.1) (g.2 * B + w.2)) =
        c.get (idx2 N (g.1 * B + w.1) (g.2 * B + w.2)) + B) ∧
    (∀ (mulAcc : γ → α → α → γ) (g w : Nat × Nat) (t : Local α) (c : Buf γ) (q : Nat),
      q ≠ idx2 N (g.1 * B + w.1) (g.2 * B + w.2) →
        (computeItem N B mulAcc g.1 g.2 t c w).get q = c.get q) ∧
    (∀ g ∈ workItems (N / B), ∀ w ∈ workItems B, ∀ g' ∈ workItems (N / B), ∀ w' ∈ workItems B,
      (g, w) ≠ (g', w') →
        idx2 N (g.1 * B + w.1) (g.2 * B + w.2) ≠ idx2 N (g'.1 * B + w'.1) (g'.2 * B + w'.2)) ∧
    (∀ p, p < N * N → ∃ gw : (Nat × Nat) × (Nat × Nat),
      (gw.1 ∈ workItems (N / B) ∧ gw.2 ∈ workItems B ∧
        idx2 N (gw.1.1 * B + gw.2.1) (gw.1.2 * B + gw.2.2) = p) ∧
      ∀ gw' : (Nat × Nat) × (Nat × Nat),
        gw'.1 ∈ workItems (N / B) ∧ gw'.2 ∈ workItems B ∧
          idx2 N (gw'.1.1 * B + gw'.2.1) (gw'.1.2 * B + gw'.2.2) = p → gw' = gw) ∧
    (∀ j i j' i', j < N → i < N → j' < N → i' < N → (j, i) ≠ (j', i') →
      idx2 N j i ≠ idx2 N j' i') ∧
    (∀ p, p < N * N → ∃ v : Nat × Nat, (v.1 < N ∧ v.2 < N ∧ idx2 N v.1 v.2 = p) ∧
      ∀ v' : Nat × Nat, v'.1 < N ∧ v'.2 < N ∧ idx2 N v'.1 v'.2 = p → v' = v) ∧
    (∀ (a b : Nat → α) (t0 : Local α) (j i : Nat), j < N → i < N →
      (matrix_mul N B countAcc a b ⟨fun _ => 0⟩ t0).get (idx2 N j i) = N) := by
  have hNB : N / B * B = N := Nat.div_mul_cancel hdiv
  -- the work-item that owns a cell of the grid
  have howner : ∀ (g w : Nat × Nat), g ∈ workItems (N / B) → w ∈ workItems B →
      ∀ j i, i < N → idx2 N j i = idx2 N (g.1 * B + w.1) (g.2 * B + w.2) →
        g = (j / B, i / B) ∧ w = (j % B, i % B) := by
    intro g w hg hw j i hi h
    have hgi : g.2 < N / B := ((mem_workItems _ _).mp hg).2
    obtain ⟨⟨h1, h2⟩, h3⟩ := (group_cell hB hgi hi w hw).mp h
    exact ⟨Prod.ext h1.symm h2.symm, h3⟩
  have hcol : ∀ (g w : Nat × Nat), g ∈ workItems (N / B) → w ∈ workItems B →
      g.2 * B + w.2 < N := by
    intro g w hg hw
    have h1 : g.2 < N / B := ((mem_workItems _ _).mp hg).2
    have h2 : w.2 < B := ((mem_workItems _ _).mp hw).2
    have h3 : (g.2 + 1) * B ≤ N / B * B := Nat.mul_le_mul_right B h1
    have h4 : (g.2 + 1) * B = g.2 * B + B := by ring
    omega
  have hglobal : ∀ p, p < N * N → 0 < N ∧ p / N < N ∧ p % N < N ∧
      idx2 N (p / N) (p % N) = p := by
    intro p hp
    have hN : 0 < N := by
      rcases Nat.eq_zero_or_pos N with h | h
      · subst h; simp at hp
      · exact h
    refine ⟨hN, Nat.div_lt_of_lt_mul hp, Nat.mod_lt _ hN, ?_⟩
    unfold idx2; rw [Nat.mul_comm]; exact Nat.div_add_mod p N
  refine ⟨?_, ?_, ?_, ?_, ?_, ?_, ?_⟩
  · intro g w t c
    rw [computeItem_get, if_pos rfl,
      foldl_countAcc (fun k => t.a_tile w.1 k) (fun k => t.b_tile k w.2), List.length_range]
  · intro mulAcc g w t c q hq
    rw [computeItem_get, if_neg hq]
  · intro g hg w hw g' hg' w' hw' hne h
    have h1 := howner g w hg hw (g'.1 * B + w'.1) (g'.2 * B + w'.2) (hcol g' w' hg' hw') h.symm
    have h2 := howner g' w' hg' hw' (g'.1 * B + w'.1) (g'.2 * B + w'.2) (hcol g' w' hg' hw') rfl
    exact hne (Prod.ext (h1.1.trans h2.1.symm) (h1.2.trans h2.2.symm))
  · intro p hp
    obtain ⟨_, hj, hi, hdecomp⟩ := hglobal p hp
    have hg : (p / N / B, p % N / B) ∈ workItems (N / B) :=
      (mem_workItems _ _).mpr
        ⟨Nat.div_lt_of_lt_mul (by rw [Nat.mul_comm, hNB]; exact hj),
          Nat.div_lt_of_lt_mul (by rw [Nat.mul_comm, hNB]; exact hi)⟩
    have hw : (p / N % B, p % N % B) ∈ workItems B :=
      (mem_workItems _ _).mpr ⟨Nat.mod_lt _ hB, Nat.mod_lt _ hB⟩
    refine ⟨((p / N / B, p % N / B), (p / N % B, p % N % B)), ⟨hg, hw, ?_⟩, ?_⟩
    · show idx2 N (p / N / B * B + p / N % B) (p % N / B * B + p % N % B) = p
      rw [Nat.mul_comm (p / N / B), Nat.mul_comm (p % N / B), Nat.div_add_mod, Nat.div_add_mod]
      exact hdecomp
    · rintro ⟨g', w'⟩ ⟨hg', hw', h⟩
      have := howner g' w' hg' hw' (p / N) (p % N) hi (hdecomp.trans h.symm)
      exact Prod.ext this.1 this.2
  · intro j i j' i' _ hi _ hi' hne h
    obtain ⟨rfl, rfl⟩ := idx2_inj hi hi' h
    exact hne rfl
  · intro p hp
    obtain ⟨hN, hj, hi, hdecomp⟩ := hglobal p hp
    refine ⟨(p / N, p % N), ⟨hj, hi, hdecomp⟩, ?_⟩
    rintro ⟨j', i'⟩ ⟨_, hi', h⟩
    simp only at hi' h
    obtain ⟨rfl, rfl⟩ := idx2_inj hi' hi (h.trans hdecomp.symm)
    rfl
  · intro a b t0 j i hj hi
    rw [matrix_mul_get N B countAcc a b _ t0 hB j i (by omega) (by omega), sweepAll_eq, hNB,
      foldl_countAcc (fun k => a (idx2 N j k)) (fun k => b (idx2 N k i))]
    simp

theorem disjoint_writes_witness :
    (0 < 2 ∧ 2 ∣ 4) ∧
    (computeItem 4 2 countAcc 1 0 ⟨fun _ _ => (7 : Int), fun _ _ => 7⟩ ⟨fun _ => 0⟩ (0, 1)).get
        (idx2 4 (1 * 2 + 0) (0 * 2 + 1)) = 0 + 2 ∧
    (computeItem 4 2 fma 1 0 ⟨fun _ _ => (7 : Int), fun _ _ => 7⟩ ⟨fun _ => 0⟩ (0, 1)).get 8 = 0 ∧
    idx2 4 (0 * 2 + 1) (1 * 2 + 0) ≠ idx2 4 (1 * 2 + 0) (0 * 2 + 1) ∧
    (∃ gw : (Nat × Nat) × (Nat × Nat),
      (gw.1 ∈ workItems (4 / 2) ∧ gw.2 ∈ workItems 2 ∧
        idx2 4 (gw.1.1 * 2 + gw.2.1) (gw.1.2 * 2 + gw.2.2) = 11) ∧
      ∀ gw' : (Nat × Nat) × (Nat × Nat),
        gw'.1 ∈ workItems (4 / 2) ∧ gw'.2 ∈ workItems 2 ∧
          idx2 4 (gw'.1.1 * 2 + gw'.2.1) (gw'.1.2 * 2 + gw'.2.2) = 11 → gw' = gw) ∧
    (matrix_mul 4 2 countAcc (fun _ => (1 : Int)) (fun _ => 1) ⟨fun _ => 0⟩
        ⟨fun _ _ => 7, fun _ _ => 7⟩).get (idx2 4 2 3) = 4 :=
  have h := @disjoint_writes Int Int 4 2 (by decide) (by decide)
  ⟨by decide,
    h.1 (1, 0) (0, 1) ⟨fun _ _ => 7, fun _ _ => 7⟩ ⟨fun _ => 0⟩,
    h.2.1 fma (1, 0) (0, 1) ⟨fun _ _ => 7, fun _ _ => 7⟩ ⟨fun _ => 0⟩ 8 (by decide),
    h.2.2.1 (0, 1) (by decide) (1, 0) (by decide) (1, 0) (by decide) (0, 1) (by decide)
      (by decide),
    h.2.2.2.1 11 (by decide),
    h.2.2.2.2.2.2 (fun _ => 1) (fun _ => 1) ⟨fun _ _ => 7, fun _ _ => 7⟩ 2 3 (by decide)
      (by decide)⟩

/-- C5, as stated, fails: with `N = 2`, `B = 2`, all entries of `a` and `b` equal
to `1` and `c` holding `5` before the launch, cell `(0, 1)` ends as `7`, not as the
product entry `2`; and the cell is stored to twice, not once. -/
theorem single_commit_counterexample :
    (matrix_mul 2 2 fma (fun _ => (1 : Int)) (fun _ => 1) ⟨fun _ => 5⟩
        ⟨fun _ _ => 0, fun _ _ => 0⟩).get (idx2 2 0 1) = 7 ∧
    gold 2 (fun _ => (1 : Int)) (fun _ => 1) 0 1 = 2 ∧
    (matrix_mul 2 2 fma (fun _ => (1 : Int)) (fun _ => 1) ⟨fun _ => 5⟩
        ⟨fun _ _ => 0, fun _ _ => 0⟩).get (idx2 2 0 1) ≠
      gold 2 (fun _ => (1 : Int)) (fun _ => 1) 0 1 ∧
    (matrix_mul 2 2 countAcc (fun _ => (1 : Int)) (fun _ => 1) ⟨fun _ => 0⟩
        ⟨fun _ _ => 0, fun _ _ => 0⟩).get (idx2 2 0 1) = 2 := by
  decide

/-- C5, amended. The kernel accumulates in place: for every content of `c` before
the launch, cell `(j, i)` ends as its previous content plus the reference value
`gold`, and it is stored to `N` times (once per term), all by its owner. -/
theorem accumulate_in_place {R : Type} [CommRing R] (N B : Nat) (hB : 0 < B) (hdiv : B ∣ N)
    (a b : Nat → R) (c : Buf R) (t0 : Local R) (j i : Nat) (hj : j < N) (hi : i < N) :
    (matrix_mul N B fma a b c t0).get (idx2 N j i) = c.get (idx2 N j i) + gold N a b j i ∧
    (matrix_mul N B countAcc a b ⟨fun _ => 0⟩ t0).get (idx2 N j i) = N := by
  have hN : N / B * B = N := Nat.div_mul_cancel hdiv
  constructor
  · rw [matrix_mul_get N B fma a b _ t0 hB j i (by omega) (by omega), sweepAll_eq, hN]
    exact foldl_fma (fun k => a (idx2 N j k) * b (idx2 N k i)) N _
  · rw [matrix_mul_get N B countAcc a b _ t0 hB j i (by omega) (by omega), sweepAll_eq, hN,
      foldl_countAcc (fun k => a (idx2 N j k)) (fun k => b (idx2 N k i))]
    simp

theorem accumulate_in_place_witness :
    (0 < 2 ∧ 2 ∣ 4 ∧ 2 < 4 ∧ 3 < 4) ∧
    ((matrix_mul 4 2 fma (fun p => (p : Int)) (fun _ => 1) ⟨fun _ => 5⟩
        ⟨fun _ _ => 0, fun _ _ => 0⟩).get (idx2 4 2 3) =
      (Buf.mk (fun _ => (5 : Int))).get (idx2 4 2 3) +
        gold 4 (fun p => (p : Int)) (fun _ => 1) 2 3 ∧
    (matrix_mul 4 2 countAcc (fun p => (p : Int)) (fun _ => 1) ⟨fun _ => 0⟩
        ⟨fun _ _ => 0, fun _ _ => 0⟩).get (idx2 4 2 3) = 4) :=
  ⟨by decide, accumulate_in_place 4 2 (by decide) (by decide) _ _ _ _ 2 3 (by decide) (by decide)⟩

/-! ### The check against the serial reference -/

theorem set2_other {α : Type} (t : Nat → Nat → α) (w w' : Nat × Nat) (v : α) (h : w' ≠ w) :
    set2 t w.1 w.2 v w'.1 w'.2 = t w'.1 w'.2 := by
  unfold set2
  rw [if_neg]
  rintro ⟨h1, h2⟩
  exact h (Prod.ext h1 h2)

theorem set2_self {α : Type} (t : Nat → Nat → α) (x y : Nat) (v : α) :
    set2 t x y v x y = v := by
  simp [set2]

theorem Group.init_inv (B T : Nat) : Group.Inv B T (Group.init T) := by
  refine ⟨fun _ _ _ _ => rfl, fun w _ => ?_, fun w _ kb h => ?_, fun w _ kb h => ?_⟩
  · show (PC.start T).wf B T
    unfold PC.start
    split
    · assumption
    · trivial
  · exfalso
    change (PC.start T).aStored = some kb at h
    unfold PC.start at h
    split at h <;> simp [PC.aStored] at h
  · exfalso
    change (PC.start T).bStored = some kb at h
    unfold PC.start at h
    split at h <;> simp [PC.bStored] at h

theorem Group.access_pc_other (B : Nat) (s : Group) (w w' : Nat × Nat) (h : w' ≠ w) :
    (s.access B w).pc w' = s.pc w' := by
  unfold Group.access
  split <;> simp [Group.goto, h]

theorem Group.access_tiles_other (B : Nat) (s : Group) (w w' : Nat × Nat) (h : w' ≠ w) :
    (s.access B w).a_tile w'.1 w'.2 = s.a_tile w'.1 w'.2 ∧
    (s.access B w).b_tile w'.1 w'.2 = s.b_tile w'.1 w'.2 := by
  unfold Group.access
  split <;> simp [set2_other _ w w' _ h]

theorem Group.access_inv (B T : Nat) (s : Group) (w : Nat × Nat) (hw : w ∈ workItems B)
    (hinv : Group.Inv B T s) : Group.Inv B T (s.access B w) := by
  obtain ⟨hph, hwf, hA, hB⟩ := hinv
  -- the work-item that moves
  have hself : ((s.access B w).pc w).phase T = (s.pc w).phase T ∧
      ((s.access B w).pc w).wf B T ∧
      (∀ kb, ((s.access B w).pc w).aStored = some kb →
        (s.access B w).a_tile w.1 w.2 = some kb) ∧
      (∀ kb, ((s.access B w).pc w).bStored = some kb →
        (s.access B w).b_tile w.1 w.2 = some kb) := by
    have hwf0 := hwf w hw
    have hA0 := hA w hw
    have hB0 := hB w hw
    unfold Group.access
    cases hpc : s.pc w with
    | loadA kb =>
      rw [hpc] at hwf0
      simp only [Group.goto, if_true, PC.phase, PC.wf, PC.aStored, PC.bStored, set2_self]
      exact ⟨trivial, hwf0, fun kb h => h, fun kb h => by simp at h⟩
    | loadB kb =>
      rw [hpc] at hwf0 hA0
      simp only [Group.goto, if_true, PC.phase, PC.wf, PC.aStored, PC.bStored, set2_self]
      exact ⟨trivial, hwf0, fun kb h => hA0 kb h, fun kb h => h⟩
    | bar1 kb =>
      simp only [hpc]
      rw [hpc] at hwf0 hA0 hB0
      exact ⟨trivial, hwf0, hA0, hB0⟩
    | accA kb k =>
      rw [hpc] at hwf0 hA0 hB0
      simp only [Group.goto, if_true, PC.phase, PC.wf, PC.aStored, PC.bStored]
      exact ⟨trivial, hwf0, hA0, hB0⟩
    | accB kb k =>
      rw [hpc] at hwf0 hA0 hB0
      simp only [Group.goto, if_true]
      by_cases hk : k + 1 < B
      · simp only [hk, if_true, PC.phase, PC.wf, PC.aStored, PC.bStored]
        exact ⟨trivial, ⟨hwf0.1, trivial⟩, hA0, hB0⟩
      · simp only [hk, if_false, PC.phase, PC.wf, PC.aStored, PC.bStored]
        exact ⟨trivial, hwf0.1, hA0, hB0⟩
    | bar2 kb =>
      simp only [hpc]
      rw [hpc] at hwf0 hA0 hB0
      exact ⟨trivial, hwf0, hA0, hB0⟩
    | done =>
      simp only [hpc]
      rw [hpc] at hA0 hB0
      exact ⟨trivial, trivial, hA0, hB0⟩
  have hphase : ∀ w', ((s.access B w).pc w').phase T = (s.pc w').phase T := by
    intro w'
    by_cases h : w' = w
    · subst h; exact hself.1
    · rw [Group.access_pc_other B s w w' h]
  refine ⟨fun w1 h1 w2 h2 => ?_, fun w1 h1 => ?_, fun w1 h1 kb h => ?_, fun w1 h1 kb h => ?_⟩
  · rw [hphase, hphase]; exact hph w1 h1 w2 h2
  · by_cases h : w1 = w
    · subst h; exact hself.2.1
    · rw [Group.access_pc_other B s w w1 h]; exact hwf w1 h1
  · by_cases hne : w1 = w
    · subst hne; exact hself.2.2.1 kb h
    · rw [Group.access_pc_other B s w w1 hne] at h
      rw [(Group.access_tiles_other B s w w1 hne).1]
      exact hA w1 h1 kb h
  · by_cases hne : w1 = w
    · subst hne; exact hself.2.2.2 kb h
    · rw [Group.access_pc_other B s w w1 hne] at h
      rw [(Group.access_tiles_other B s w w1 hne).2]
      exact hB w1 h1 kb h

theorem PC.afterBarrier_spec (B T : Nat) (p : PC) (hb : p.isBarrier = true) (hwf : p.wf B T) :
    (p.afterBarrier B T).phase T = p.phase T + 1 ∧ (p.afterBarrier B T).wf B T ∧
    (∀ kb, (p.afterBarrier B T).aStored = some kb → p.aStored = some kb) ∧
    (∀ kb, (p.afterBarrier B T).bStored = some kb → p.bStored = some kb) := by
  cases p with
  | bar1 kb =>
    unfold PC.afterBarrier
    by_cases h : 0 < B
    · simp only [h, if_true, PC.phase, PC.wf, PC.aStored, PC.bStored]
      exact ⟨trivial, ⟨hwf, trivial⟩, fun kb h => h, fun kb h => h⟩
    · simp only [h, if_false, PC.phase, PC.wf, PC.aStored, PC.bStored]
      exact ⟨trivial, hwf, fun kb h => h, fun kb h => h⟩
  | bar2 kb =>
    unfold PC.afterBarrier
    have hkb : kb < T := hwf
    by_cases h : kb + 1 < T
    · simp only [h, if_true, PC.phase, PC.wf, PC.aStored, PC.bStored]
      exact ⟨by omega, trivial, fun kb h => by simp at h, fun kb h => by simp at h⟩
    · simp only [h, if_false, PC.phase, PC.wf, PC.aStored, PC.bStored]
      exact ⟨by omega, trivial, fun kb h => by simp at h, fun kb h => by simp at h⟩
  | loadA kb => simp [PC.isBarrier] at hb
  | loadB kb => simp [PC.isBarrier] at hb
  | accA kb k => simp [PC.isBarrier] at hb
  | accB kb k => simp [PC.isBarrier] at hb
  | done => simp [PC.isBarrier] at hb

theorem Group.release_inv (B T : Nat) (s : Group)
    (hall : ∀ w ∈ workItems B, (s.pc w).isBarrier = true)
    (hinv : Group.Inv B T s) : Group.Inv B T (s.release B T) := by
  obtain ⟨hph, hwf, hA, hB⟩ := hinv
  have hspec := fun w hw => PC.afterBarrier_spec B T (s.pc w) (hall w hw) (hwf w hw)
  refine ⟨fun w1 h1 w2 h2 => ?_, fun w1 h1 => (hspec w1 h1).2.1, fun w1 h1 kb h => ?_,
    fun w1 h1 kb h => ?_⟩
  · show ((s.pc w1).afterBarrier B T).phase T = ((s.pc w2).afterBarrier B T).phase T
    rw [(hspec w1 h1).1, (hspec w2 h2).1, hph w1 h1 w2 h2]
  · exact hA w1 h1 kb ((hspec w1 h1).2.2.1 kb h)
  · exact hB w1 h1 kb ((hspec w1 h1).2.2.2 kb h)

theorem Group.reachable_inv (B T : Nat) (s : Group) (h : Group.Reachable B T s) :
    Group.Inv B T s := by
  induction h with
  | init => exact Group.init_inv B T
  | step s s' _ hstep ih =>
    cases hstep with
    | access w hw _ => exact Group.access_inv B T s w hw ih
    | barrier hall => exact Group.release_inv B T s hall ih

theorem PC.odd_phase (T : Nat) (p : PC) (kb : Nat) (h : p.phase T = 2 * kb + 1) :
    p.aStored = some kb ∧ p.bStored = some kb := by
  cases p with
  | loadA kb' => simp only [PC.phase] at h; omega
  | loadB kb' => simp only [PC.phase] at h; omega
  | bar1 kb' => simp only [PC.phase] at h; omega
  | accA kb' k =>
    simp only [PC.phase] at h
    have e : kb' = kb := by omega
    subst e
    exact ⟨rfl, rfl⟩
  | accB kb' k =>
    simp only [PC.phase] at h
    have e : kb' = kb := by omega
    subst e
    exact ⟨rfl, rfl⟩
  | bar2 kb' =>
    simp only [PC.phase] at h
    have e : kb' = kb := by omega
    subst e
    exact ⟨rfl, rfl⟩
  | done => simp only [PC.phase] at h; omega

theorem PC.even_phase (T : Nat) (p : PC) (kb : Nat) (h : p.phase T = 2 * (kb + 1)) :
    p.readsDone kb = true := by
  cases p <;> simp only [PC.phase] at h <;> simp only [PC.readsDone, decide_eq_true_eq] <;> omega

/-- C4. Barrier safety: in every state that a work-group of `B × B` work-items
reaches, in any interleaving of the tile accesses of its work-items between the
barriers, a work-item about to read `a_tile[lj][k]` or `b_tile[k][li]` in sweep
step `kb` finds there the store of step `kb` (already written, not yet
overwritten), and whenever a work-item is about to store for step `kb + 1`, every
work-item of the group has finished its reads of step `kb`. -/
theorem barrier_safety (B T : Nat) (s : Group) (h : Group.Reachable B T s) :
    (∀ w ∈ workItems B, ∀ kb k, s.pc w = PC.accA kb k → s.a_tile w.1 k = some kb) ∧
    (∀ w ∈ workItems B, ∀ kb k, s.pc w = PC.accB kb k → s.b_tile k w.2 = some kb) ∧
    (∀ w ∈ workItems B, ∀ kb, s.pc w = PC.loadA (kb + 1) ∨ s.pc w = PC.loadB (kb + 1) →
      ∀ w' ∈ workItems B, (s.pc w').readsDone kb = true) := by
  obtain ⟨hph, hwf, hA, hB⟩ := Group.reachable_inv B T s h
  refine ⟨fun w hw kb k hpc => ?_, fun w hw kb k hpc => ?_, fun w hw kb hpc w' hw' => ?_⟩
  · have hk : k < B := by
      have := hwf w hw
      rw [hpc] at this
      exact this.2
    have hw' : (w.1, k) ∈ workItems B :=
      (mem_workItems B _).mpr ⟨((mem_workItems B w).mp hw).1, hk⟩
    have hphase : (s.pc (w.1, k)).phase T = 2 * kb + 1 := by
      rw [hph (w.1, k) hw' w hw, hpc]; rfl
    exact hA (w.1, k) hw' kb (PC.odd_phase T _ kb hphase).1
  · have hk : k < B := by
      have := hwf w hw
      rw [hpc] at this
      exact this.2
    have hw' : (k, w.2) ∈ workItems B :=
      (mem_workItems B _).mpr ⟨hk, ((mem_workItems B w).mp hw).2⟩
    have hphase : (s.pc (k, w.2)).phase T = 2 * kb + 1 := by
      rw [hph (k, w.2) hw' w hw, hpc]; rfl
    exact hB (k, w.2) hw' kb (PC.odd_phase T _ kb hphase).2
  · apply PC.even_phase T
    rw [hph w' hw' w hw]
    rcases hpc with hpc | hpc <;> rw [hpc] <;> rfl

theorem Group.reachable_run (B T : Nat) (sched : List (Option (Nat × Nat))) (s : Group)
    (hs : Group.Reachable B T s) (hadm : Group.admits B T sched s = true) :
    Group.Reachable B T (Group.run B T sched s) := by
  induction sched generalizing s with
  | nil => exact hs
  | cons e es ih =>
    simp only [Group.admits, Bool.and_eq_true] at hadm
    refine ih (s.fire B T e) (Group.Reachable.step s _ hs ?_) hadm.2
    cases e with
    | some w =>
      simp only [Group.enabled, Bool.and_eq_true, decide_eq_true_eq] at hadm
      exact Group.Step.access s w hadm.1.1 hadm.1.2
    | none =>
      simp only [Group.enabled, List.all_eq_true] at hadm
      exact Group.Step.barrier s hadm.1

theorem barrier_safety_witness :
    (Group.Reachable 2 2 Group.sampleRead ∧ Group.Reachable 2 2 Group.sampleStore) ∧
    (Group.sampleRead.pc (0, 0) = PC.accA 0 1 ∧ Group.sampleRead.a_tile 0 1 = some 0) ∧
    (Group.sampleRead.pc (1, 0) = PC.accB 0 0 ∧ Group.sampleRead.b_tile 0 0 = some 0) ∧
    (Group.sampleStore.pc (0, 0) = PC.loadB 1 ∧ Group.sampleStore.a_tile 0 0 = some 1 ∧
      ∀ w' ∈ workItems 2, (Group.sampleStore.pc w').readsDone 0 = true) :=
  have hr : Group.Reachable 2 2 Group.sampleRead :=
    Group.reachable_run 2 2 Group.schedRead (Group.init 2) Group.Reachable.init (by decide)
  have hs : Group.Reachable 2 2 Group.sampleStore :=
    Group.reachable_run 2 2 Group.schedStore (Group.init 2) Group.Reachable.init (by decide)
  ⟨⟨hr, hs⟩,
    ⟨rfl, (barrier_safety 2 2 Group.sampleRead hr).1 (0, 0) (by decide) 0 1 rfl⟩,
    ⟨rfl, (barrier_safety 2 2 Group.sampleRead hr).2.1 (1, 0) (by decide) 0 0 rfl⟩,
    ⟨rfl, rfl,
      (barrier_safety 2 2 Group.sampleStore hs).2.2 (0, 0) (by decide) 0 (Or.inr rfl)⟩⟩


end MatrixMulLocal

namespace MatrixMulMkl

open MatrixMulLocal

/-! ### `VerifyResult` -/

theorem verify_row {α : Type} (bad : Nat → Bool) (mk : Nat → Line α) (js : List Nat)
    (st : List (Line α) × Bool) :
    js.foldl (fun (st : List (Line α) × Bool) j =>
        if bad j then (st.1 ++ [mk j], true) else st) st =
      (st.1 ++ (js.filter bad).map mk, st.2 || !((js.filter bad).map mk).isEmpty) := by
  induction js generalizing st with
  | nil => simp
  | cons j js ih =>
    rw [List.foldl_cons, ih]
    by_cases h : bad j = true
    · simp [h]
    · simp [h]

theorem verify_rows {α : Type} (step : List (Line α) × Bool → Nat → List (Line α) × Bool)
    (row : Nat → List (Line α))
    (hstep : ∀ st i, step st i = (st.1 ++ row i, st.2 || !(row i).isEmpty))
    (l : List Nat) (st : List (Line α) × Bool) :
    l.foldl step st = (st.1 ++ l.flatMap row, st.2 || !(l.flatMap row).isEmpty) := by
  induction l generalizing st with
  | nil => simp
  | cons i l ih =>
    rw [List.foldl_cons, ih, hstep]
    simp only [List.flatMap_cons, List.append_assoc, Prod.mk.injEq, true_and]
    generalize row i = r
    generalize l.flatMap row = m
    cases r <;> cases m <;> simp

/-- `VerifyResult` for an arbitrary element comparison. -/
theorem VerifyResult_eq {α : Type} (same : α → α → Bool) (SIZE : Nat) (c_A c_B : Nat → α) :
    VerifyResult same SIZE c_A c_B =
      if (mismatches same SIZE c_A c_B).isEmpty then ([Line.success], 0)
      else (mismatches same SIZE c_A c_B ++ [Line.fail], -1) := by
  unfold VerifyResult
  simp only []
  rw [verify_rows _ (fun i =>
    ((List.range (P SIZE)).filter (fun j => !same (c_A (iP SIZE i j)) (c_B (iP SIZE i j)))).map
      (fun j => Line.mismatch i j (c_A (iP SIZE i j)) (c_B (iP SIZE i j))))]
  · change (if (!(false || !(mismatches same SIZE c_A c_B).isEmpty)) = true then
        ([] ++ mismatches same SIZE c_A c_B ++ [Line.success], (0 : Int))
      else ([] ++ mismatches same SIZE c_A c_B ++ [Line.fail], -1)) = _
    cases h : (mismatches same SIZE c_A c_B).isEmpty
    · simp
    · simp [List.isEmpty_iff.mp h]
  · intro st i
    exact verify_row (fun j => !same (c_A (iP SIZE i j)) (c_B (iP SIZE i j)))
      (fun j => Line.mismatch i j (c_A (iP SIZE i j)) (c_B (iP SIZE i j))) _ st

theorem mem_mismatches {α : Type} (same : α → α → Bool) (SIZE : Nat) (c_A c_B : Nat → α)
    (i j : Nat) (e g : α) :
    Line.mismatch i j e g ∈ mismatches same SIZE c_A c_B ↔
      i < M SIZE ∧ j < P SIZE ∧ same (c_A (iP SIZE i j)) (c_B (iP SIZE i j)) = false ∧
        e = c_A (iP SIZE i j) ∧ g = c_B (iP SIZE i j) := by
  unfold mismatches
  simp only [List.mem_flatMap, List.mem_range, List.mem_map, List.mem_filter,
    Bool.not_eq_true', Line.mismatch.injEq]
  constructor
  · rintro ⟨i', hi', j', ⟨hj', hs⟩, rfl, rfl, rfl, rfl⟩
    exact ⟨hi', hj', hs, rfl, rfl⟩
  · rintro ⟨hi, hj, hs, rfl, rfl⟩
    exact ⟨i, hi, j, ⟨hj, hs⟩, rfl, rfl, rfl, rfl⟩

/-- C6. `VerifyResult` prints, row by row, one line for every `(i, j)` with
`i < M`, `j < P` on which `ValueSame` fails (expected: the element of `c_A`, got:
the element of `c_B`) and nothing for the others, without stopping at the first;
it ends with the verdict line and returns `0` when no mismatch was printed and
`-1` otherwise. -/
theorem VerifyResult_reports_all (SIZE : Nat) (c_A c_B : Nat → ℚ) :
    (VerifyResult ValueSame SIZE c_A c_B).1 =
        mismatches ValueSame SIZE c_A c_B ++
          [if (mismatches ValueSame SIZE c_A c_B).isEmpty then Line.success else Line.fail] ∧
    ((VerifyResult ValueSame SIZE c_A c_B).2 = 0 ↔ mismatches ValueSame SIZE c_A c_B = []) ∧
    ((VerifyResult ValueSame SIZE c_A c_B).2 = -1 ↔ mismatches ValueSame SIZE c_A c_B ≠ []) ∧
    (∀ i j e g, Line.mismatch i j e g ∈ (VerifyResult ValueSame SIZE c_A c_B).1 ↔
      i < M SIZE ∧ j < P SIZE ∧ ¬ |c_A (iP SIZE i j) - c_B (iP SIZE i j)| < 1 / 100000000 ∧
        e = c_A (iP SIZE i j) ∧ g = c_B (iP SIZE i j)) ∧
    mismatches ValueSame SIZE c_A c_B =
      (List.range (M SIZE)).flatMap (fun i =>
        ((List.range (P SIZE)).filter
          (fun j => !ValueSame (c_A (iP SIZE i j)) (c_B (iP SIZE i j)))).map
          (fun j => Line.mismatch i j (c_A (iP SIZE i j)) (c_B (iP SIZE i j)))) := by
  have hout : (VerifyResult ValueSame SIZE c_A c_B).1 =
      mismatches ValueSame SIZE c_A c_B ++
        [if (mismatches ValueSame SIZE c_A c_B).isEmpty then Line.success else Line.fail] := by
    rw [VerifyResult_eq]
    cases h : (mismatches ValueSame SIZE c_A c_B).isEmpty
    · simp
    · simp [List.isEmpty_iff.mp h]
  refine ⟨hout, ?_, ?_, ?_, rfl⟩
  · rw [VerifyResult_eq]
    cases h : (mismatches ValueSame SIZE c_A c_B).isEmpty
    · have hne : mismatches ValueSame SIZE c_A c_B ≠ [] := by
        intro e; rw [e] at h; simp at h
      simp [hne]
    · simp [List.isEmpty_iff.mp h]
  · rw [VerifyResult_eq]
    cases h : (mismatches ValueSame SIZE c_A c_B).isEmpty
    · have hne : mismatches ValueSame SIZE c_A c_B ≠ [] := by
        intro e; rw [e] at h; simp at h
      simp [hne]
    · simp [List.isEmpty_iff.mp h]
  · intro i j e g
    rw [hout, List.mem_append, mem_mismatches]
    have hv : ValueSame (c_A (iP SIZE i j)) (c_B (iP SIZE i j)) = false ↔
        ¬ |c_A (iP SIZE i j) - c_B (iP SIZE i j)| < 1 / 100000000 := by
      simp [ValueSame]
    rw [hv]
    constructor
    · rintro (h | h)
      · exact h
      · exfalso
        cases hm : (mismatches ValueSame SIZE c_A c_B).isEmpty <;> simp [hm] at h
    · intro h
      exact Or.inl h

/-! ### The macro-expanded index expressions -/

theorem iP_eq (SIZE i j : Nat) (h : 8 ∣ SIZE) : iP SIZE i j = i * (SIZE / 2) + j := by
  unfold iP
  rw [Nat.mul_div_assoc i (Dvd.dvd.trans (by decide : 2 ∣ 8) h)]

theorem iN_eq (SIZE i d : Nat) (h : 8 ∣ SIZE) : iN SIZE i d = i * (SIZE / 4) + d := by
  unfold iN
  rw [Nat.mul_div_assoc i (Dvd.dvd.trans (by decide : 4 ∣ 8) h)]

theorem row_bound {n m i j : Nat} (hi : i < n) (hj : j < m) : i * m + j < n * m := by
  have h1 : (i + 1) * m ≤ n * m := Nat.mul_le_mul_right m hi
  have h2 : (i + 1) * m = i * m + m := by ring
  omega

/-! ### The serial product -/

theorem C_serial_get {R : Type} [Semiring R] (SIZE : Nat) (h : 8 ∣ SIZE) (A B : Nat → R)
    (i j : Nat) (hi : i < M SIZE) (hj : j < P SIZE) :
    (C_serial SIZE A B).get (iP SIZE i j) =
      (List.range (N SIZE)).foldl (fun acc d => acc + A (iN SIZE i d) * B (iP SIZE d j)) 0 := by
  have hcell : ∀ i' j', j' < P SIZE → (iP SIZE i j = iP SIZE i' j' ↔ i = i' ∧ j = j') := by
    intro i' j' hj'
    rw [iP_eq SIZE i j h, iP_eq SIZE i' j' h]
    constructor
    · intro e
      exact @idx2_inj (SIZE / 2) _ _ _ _ hj hj' e
    · rintro ⟨rfl, rfl⟩; rfl
  -- one row
  have hrow : ∀ (c : Buf R) (i' : Nat),
      ((List.range (P SIZE)).foldl (fun c j' =>
        (List.range (N SIZE)).foldl (fun c d =>
          c.set (iP SIZE i' j') (c.get (iP SIZE i' j') + A (iN SIZE i' d) * B (iP SIZE d j')))
          c) c).get (iP SIZE i j) =
      if i' = i then
        (List.range (N SIZE)).foldl (fun acc d => acc + A (iN SIZE i d) * B (iP SIZE d j))
          (c.get (iP SIZE i j))
      else c.get (iP SIZE i j) := by
    intro c i'
    have key := foldl_owned
      (fun (c : Buf R) j' => (List.range (N SIZE)).foldl (fun c d =>
          c.set (iP SIZE i' j') (c.get (iP SIZE i' j') + A (iN SIZE i' d) * B (iP SIZE d j')))
          c)
      (fun c => c.get (iP SIZE i j)) (fun j' => iP SIZE i j = iP SIZE i' j')
      (fun j' v => (List.range (N SIZE)).foldl
        (fun acc d => acc + A (iN SIZE i' d) * B (iP SIZE d j')) v)
      (List.range (P SIZE))
      (fun s k _ hk => by
        simp only []
        rw [foldl_set_get (fun acc d => acc + A (iN SIZE i' d) * B (iP SIZE d k)), if_pos hk, hk])
      (fun s k _ hk => by
        simp only []
        rw [foldl_set_get (fun acc d => acc + A (iN SIZE i' d) * B (iP SIZE d k)), if_neg hk])
      (fun k hk k' hk' e e' => by
        have := ((hcell i' k (List.mem_range.mp hk)).mp e).2
        have := ((hcell i' k' (List.mem_range.mp hk')).mp e').2
        omega)
      (List.nodup_range _) c
    by_cases hii : i' = i
    · subst hii
      rw [if_pos rfl]
      exact key.1 j (List.mem_range.mpr hj) rfl
    · rw [if_neg hii]
      exact key.2 (fun k hk e => hii ((hcell i' k (List.mem_range.mp hk)).mp e).1.symm)
  have key := foldl_owned
    (fun (c : Buf R) i' => (List.range (P SIZE)).foldl (fun c j' =>
        (List.range (N SIZE)).foldl (fun c d =>
          c.set (iP SIZE i' j') (c.get (iP SIZE i' j') + A (iN SIZE i' d) * B (iP SIZE d j')))
          c) c)
    (fun c => c.get (iP SIZE i j)) (fun i' => i' = i)
    (fun _ v => (List.range (N SIZE)).foldl
      (fun acc d => acc + A (iN SIZE i d) * B (iP SIZE d j)) v)
    (List.range (M SIZE))
    (fun s k _ hk => by simp only []; rw [hrow, if_pos hk])
    (fun s k _ hk => by simp only []; rw [hrow, if_neg hk])
    (fun k _ k' _ e e' => by rw [e, e'])
    (List.nodup_range _) ⟨fun _ => 0⟩
  exact key.1 i (List.mem_range.mpr hi) rfl

theorem wrapInt_eq (x : Int) (h1 : -2147483648 ≤ x) (h2 : x ≤ 2147483647) : wrapInt x = x := by
  unfold wrapInt
  omega

/-- An expanded `int` product `SIZE/q*SIZE/r` that does not overflow is the
product of the two quotients. -/
theorem int_size_eq (SIZE q r : Nat) (hr : r ∣ SIZE)
    (hfit : SIZE / q * SIZE ≤ 2147483647) :
    Int.tdiv (wrapInt (Int.tdiv (SIZE : Int) (q : Int) * (SIZE : Int))) (r : Int) =
      ((SIZE / q * (SIZE / r) : Nat) : Int) := by
  rw [← Int.ofNat_tdiv, ← Nat.cast_mul, wrapInt_eq _ (by omega) (by omega), ← Int.ofNat_tdiv,
    Nat.mul_div_assoc _ hr]

/-- C10, as stated, fails for large `SIZE`: at `SIZE = 92688`, a multiple of 8,
the `int` product `(SIZE/4)*SIZE = 2147766336` exceeds `INT_MAX`, and the
expanded allocation size `N*P` is not `(SIZE/4)*(SIZE/2)`. -/
theorem int_overflow_counterexample :
    8 ∣ 92688 ∧ 92688 / 4 * 92688 = 2147766336 ∧ NP 92688 = -1073600480 ∧
    NP 92688 ≠ ((92688 / 4 * (92688 / 2) : Nat) : Int) := by
  refine ⟨⟨11586, by norm_num⟩, by norm_num, ?_, ?_⟩ <;> decide

/-- C10, amended. For every `SIZE` that is a multiple of 8, the macro-expanded
index expressions `i*SIZE/2 + j`, `i*SIZE/4 + d` are the row-major offsets
`i*(SIZE/2) + j`, `i*(SIZE/4) + d`. When the `int` product `(SIZE/8)*SIZE` does not
overflow, the expanded sizes `M*N` and `M*P` are the products of the dimensions and
the accesses to `A` and to `C_serial` are within them; when `(SIZE/4)*SIZE` does
not overflow either, the same holds for `N*P` and `B`, and the triple loop leaves in
`C_serial[i*P + j]` the sum over `d < N` of `A[i*N + d] * B[d*P + j]`, for every
`i < M`, `j < P`. -/
theorem serial_reference_row_major {R : Type} [Semiring R] (SIZE : Nat) (h8 : 8 ∣ SIZE)
    (A B : Nat → R) :
    (∀ i j, iP SIZE i j = i * (SIZE / 2) + j) ∧
    (∀ i d, iN SIZE i d = i * (SIZE / 4) + d) ∧
    (SIZE / 8 * SIZE ≤ 2147483647 →
      MN SIZE = ((SIZE / 8 * (SIZE / 4) : Nat) : Int) ∧
      MP SIZE = ((SIZE / 8 * (SIZE / 2) : Nat) : Int) ∧
      (∀ i j, i < M SIZE → j < P SIZE → ((iP SIZE i j : Nat) : Int) < MP SIZE) ∧
      (∀ i d, i < M SIZE → d < N SIZE → ((iN SIZE i d : Nat) : Int) < MN SIZE)) ∧
    (SIZE / 4 * SIZE ≤ 2147483647 →
      NP SIZE = ((SIZE / 4 * (SIZE / 2) : Nat) : Int) ∧
      (∀ d j, d < N SIZE → j < P SIZE → ((iP SIZE d j : Nat) : Int) < NP SIZE) ∧
      (∀ i j, i < M SIZE → j < P SIZE →
        (C_serial SIZE A B).get (i * (SIZE / 2) + j) =
          ∑ d in Finset.range (SIZE / 4), A (i * (SIZE / 4) + d) * B (d * (SIZE / 2) + j))) := by
  have h2 : 2 ∣ SIZE := Dvd.dvd.trans (by decide : 2 ∣ 8) h8
  have h4 : 4 ∣ SIZE := Dvd.dvd.trans (by decide : 4 ∣ 8) h8
  refine ⟨fun i j => iP_eq SIZE i j h8, fun i d => iN_eq SIZE i d h8, ?_, ?_⟩
  · intro hfit
    have hMN : MN SIZE = ((SIZE / 8 * (SIZE / 4) : Nat) : Int) := int_size_eq SIZE 8 4 h4 hfit
    have hMP : MP SIZE = ((SIZE / 8 * (SIZE / 2) : Nat) : Int) := int_size_eq SIZE 8 2 h2 hfit
    refine ⟨hMN, hMP, ?_, ?_⟩
    · intro i j hi hj
      rw [iP_eq SIZE i j h8, hMP]
      exact Int.ofNat_lt.mpr (row_bound hi hj)
    · intro i d hi hd
      rw [iN_eq SIZE i d h8, hMN]
      exact Int.ofNat_lt.mpr (row_bound hi hd)
  · intro hfit
    have hNP : NP SIZE = ((SIZE / 4 * (SIZE / 2) : Nat) : Int) := int_size_eq SIZE 4 2 h2 hfit
    refine ⟨hNP, ?_, ?_⟩
    · intro d j hd hj
      rw [iP_eq SIZE d j h8, hNP]
      exact Int.ofNat_lt.mpr (row_bound hd hj)
    · intro i j hi hj
      rw [← iP_eq SIZE i j h8, C_serial_get SIZE h8 A B i j hi hj,
        ← foldl_add_eq_sum (fun d => A (i * (SIZE / 4) + d) * B (d * (SIZE / 2) + j))]
      apply List.foldl_ext
      intro acc d _
      rw [iN_eq SIZE i d h8, iP_eq SIZE d j h8]

set_option maxRecDepth 100000 in
theorem serial_reference_row_major_witness :
    (8 ∣ 4800 ∧ 4800 / 8 * 4800 ≤ 2147483647 ∧ 4800 / 4 * 4800 ≤ 2147483647) ∧
    (MN 4800 = ((4800 / 8 * (4800 / 4) : Nat) : Int) ∧
      MP 4800 = ((4800 / 8 * (4800 / 2) : Nat) : Int) ∧
      NP 4800 = ((4800 / 4 * (4800 / 2) : Nat) : Int)) ∧
    ((∀ i j, i < M 4800 → j < P 4800 → ((iP 4800 i j : Nat) : Int) < MP 4800) ∧
      (∀ i d, i < M 4800 → d < N 4800 → ((iN 4800 i d : Nat) : Int) < MN 4800) ∧
      (∀ d j, d < N 4800 → j < P 4800 → ((iP 4800 d j : Nat) : Int) < NP 4800)) ∧
    (8 ∣ 16 ∧ 16 / 4 * 16 ≤ 2147483647) ∧
    (∀ i j, i < M 16 → j < P 16 →
      (C_serial 16 (fun p => (p : Int)) (fun p => (p : Int) + 1)).get (i * (16 / 2) + j) =
        ∑ d in Finset.range (16 / 4),
          (fun p => (p : Int)) (i * (16 / 4) + d) * (fun p => (p : Int) + 1) (d * (16 / 2) + j)) :=
  have h := @serial_reference_row_major Int _ 4800 ⟨600, rfl⟩ (fun p => (p : Int))
    (fun p => (p : Int) + 1)
  have hM := h.2.2.1 (by norm_num)
  have hN := h.2.2.2 (by norm_num)
  have h16 := (@serial_reference_row_major Int _ 16 ⟨2, rfl⟩ (fun p => (p : Int))
    (fun p => (p : Int) + 1)).2.2.2 (by norm_num)
  ⟨⟨⟨600, rfl⟩, by norm_num, by norm_num⟩, ⟨hM.1, hM.2.1, hN.1⟩,
    ⟨hM.2.2.1, hM.2.2.2, hN.2.1⟩, ⟨⟨2, rfl⟩, by norm_num⟩, h16.2.2⟩

end MatrixMulMkl

namespace DagQueueFunctor

theorem wrap32_eq (x : Int) (h1 : -2147483648 ≤ x) (h2 : x ≤ 2147483647) : wrap32 x = x := by
  unfold wrap32
  omega

theorem f_copy_fold_length (R : List Int) (m : Nat) (W : List Int) :
    ((List.range m).foldl (memcopy_kernel R) W).length = W.length := by
  induction m with
  | zero => simp
  | succ m ih => rw [List.range_succ, List.foldl_append]; simp [memcopy_kernel, ih]

theorem f_copy_fold_get (R : List Int) (m : Nat) (W : List Int) (k : Nat) :
    ((List.range m).foldl (memcopy_kernel R) W)[k]? =
      if k < m ∧ k < W.length then some (wrap32 (R.getD k 0 + 1)) else W[k]? := by
  induction m with
  | zero => simp
  | succ m ih =>
    rw [List.range_succ, List.foldl_append]
    simp only [List.foldl_cons, List.foldl_nil, memcopy_kernel]
    rw [List.getElem?_set, f_copy_fold_length, ih]
    by_cases hmk : m = k
    · subst hmk
      by_cases hlen : m < W.length
      · simp [hlen]
      · have : W[m]? = none := List.getElem?_eq_none (by omega)
        simp [hlen, this]
    · by_cases hk : k < m
      · have : k < m + 1 := by omega
        simp [hmk, hk, this]
      · have : ¬ k < m + 1 := by omega
        simp [hmk, hk, this]

/-- A command group `f_copy` over buffers of `global_range` elements writes
`R[i] + 1` to every `W[i]`. -/
theorem f_copy_eq (n : Nat) (W R : List Int) (hW : W.length = n) (hR : R.length = n) :
    f_copy n W R = R.map (fun v => wrap32 (v + 1)) := by
  apply List.ext_getElem?
  intro k
  unfold f_copy
  rw [f_copy_fold_get, List.getElem?_map, hW]
  by_cases hk : k < n
  · have hk' : k < R.length := by omega
    simp [hk, List.getD_eq_getElem?_getD, List.getElem?_eq_getElem hk']
  · have h1 : W[k]? = none := List.getElem?_eq_none (by omega)
    have h2 : R[k]? = none := List.getElem?_eq_none (by omega)
    simp [hk, h1, h2]

theorem wrap32_three (k : Nat) (h : k + 3 ≤ 2147483647) :
    wrap32 (wrap32 (wrap32 ((k : Int) + 1) + 1) + 1) = (k : Int) + 3 := by
  rw [wrap32_eq ((k : Int) + 1) (by omega) (by omega),
    wrap32_eq ((k : Int) + 1 + 1) (by omega) (by omega),
    wrap32_eq ((k : Int) + 1 + 1 + 1) (by omega) (by omega)]
  omega

theorem iota_length (n : Nat) : (iota n).length = n := by
  unfold iota
  rw [List.length_map, List.length_range]

theorem main_eq (n : Nat) (h : n + 3 ≤ 2147483647) (B0 C0 : List Int)
    (hB : B0.length = n) (hC : C0.length = n) :
    main n B0 C0 = (List.range n).map (fun (idx : Nat) => (idx : Int) + 3) := by
  have hA : (iota n).length = n := iota_length n
  have h1 := f_copy_eq n B0 (iota n) hB hA
  have h2 := f_copy_eq n C0 (f_copy n B0 (iota n)) hC (by rw [h1, List.length_map, hA])
  have h3 := f_copy_eq n (iota n) (f_copy n C0 (f_copy n B0 (iota n))) hA
    (by rw [h2, List.length_map, h1, List.length_map, hA])
  show f_copy n (iota n) (f_copy n C0 (f_copy n B0 (iota n))) = _
  rw [h3, h2, h1]
  unfold iota
  rw [List.map_map, List.map_map, List.map_map]
  apply List.map_congr_left
  intro idx hidx
  have hlt : idx < n := List.mem_range.mp hidx
  have hw := wrap32_three idx (by omega)
  rw [Function.comp_apply, Function.comp_apply, Function.comp_apply]
  exact hw

theorem assert_loop (n s : Nat) (ok : Bool) (h : s + n + 3 ≤ 2147483647) :
    ((List.range' s n).map (fun (idx : Nat) => (idx : Int) + 3)).foldl
      (fun (st : Bool × Int) v => (st.1 && decide (v = wrap32 (st.2 + 3)), wrap32 (st.2 + 1)))
      (ok, (s : Int)) = (ok, ((s + n : Nat) : Int)) := by
  induction n generalizing s ok with
  | zero => rfl
  | succ n ih =>
    rw [List.range'_succ, List.map_cons, List.foldl_cons]
    have e1 : wrap32 ((s : Int) + 3) = (s : Int) + 3 := wrap32_eq _ (by omega) (by omega)
    have e2 : wrap32 ((s : Int) + 1) = ((s + 1 : Nat) : Int) := by
      rw [wrap32_eq _ (by omega) (by omega)]; push_cast; rfl
    have e3 : (ok && decide ((s : Int) + 3 = (s : Int) + 3)) = ok := by
      rw [decide_eq_true rfl, Bool.and_true]
    show List.foldl _ (ok && decide ((s : Int) + 3 = wrap32 ((s : Int) + 3)),
      wrap32 ((s : Int) + 1)) _ = _
    rw [e1, e2, e3, ih (s + 1) ok (by omega)]
    have e4 : s + 1 + n = s + (n + 1) := by omega
    rw [e4]

/-- C9. The linear DAG adds 3: from `A = [0, 1, .., n-1]`, whatever the
uninitialised contents of the buffers of `B` and `C`, after the three copies
`A[idx] = idx + 3` for every `idx < n`, and every `assert(v == idx + 3)` holds
(with `n + 3 ≤ INT_MAX`, so that no `cl_int` addition wraps). -/
theorem linear_dag_adds_three (n : Nat) (h : n + 3 ≤ 2147483647) (B0 C0 : List Int)
    (hB : B0.length = n) (hC : C0.length = n) :
    (main n B0 C0).length = n ∧
    (∀ idx, idx < n → (main n B0 C0).getD idx 0 = (idx : Int) + 3) ∧
    asserts_hold (main n B0 C0) = true := by
  have hmain := main_eq n h B0 C0 hB hC
  refine ⟨by rw [hmain, List.length_map, List.length_range], ?_, ?_⟩
  · intro idx hidx
    rw [hmain, List.getD_eq_getElem?_getD, List.getElem?_map,
      List.getElem?_range hidx]
    rfl
  · unfold asserts_hold
    rw [hmain, List.range_eq_range']
    have := assert_loop n 0 true (by omega)
    rw [Nat.cast_zero] at this
    rw [this]

theorem linear_dag_adds_three_witness :
    (4 + 3 ≤ 2147483647 ∧ [9, 9, 9, (9 : Int)].length = 4 ∧ [7, 7, 7, (7 : Int)].length = 4) ∧
    ((main 4 [9, 9, 9, 9] [7, 7, 7, 7]).length = 4 ∧
    (∀ idx, idx < 4 → (main 4 [9, 9, 9, 9] [7, 7, 7, 7]).getD idx 0 = (idx : Int) + 3) ∧
    asserts_hold (main 4 [9, 9, 9, 9] [7, 7, 7, 7]) = true) :=
  ⟨⟨by omega, rfl, rfl⟩, linear_dag_adds_three 4 (by omega) [9, 9, 9, 9] [7, 7, 7, 7] rfl rfl⟩

end DagQueueFunctor
